import Mathlib

/-!
Verification of the binary-asset storage and delivery subsystem of the
`back-end-play3` service.  JavaScript strings are modelled as `List Char`;
the MongoDB / GridFS collections are modelled as Lean lists of records;
each HTTP handler relevant to the specification is translated into a pure
state-transition function.
-/

namespace BackendPlay

/-- JavaScript `url.split("/")`: splits a string at every `'/'` character.
`splitSlash [] = [[]]`, matching `"".split("/") === [""]`. -/
def splitSlash : List Char → List (List Char)
  | [] => [[]]
  | c :: cs =>
      if c = '/' then [] :: splitSlash cs
      else
        match splitSlash cs with
        | [] => [[c]]
        | p :: ps => (c :: p) :: ps

/-- JavaScript `parts[parts.length - 1]`: the last element of a list of
strings (the empty string for an empty list). -/
def lastElem : List (List Char) → List Char
  | [] => []
  | [x] => x
  | _ :: x :: xs => lastElem (x :: xs)

/-- `extractFilenameFromUrl` from `controllers/productController.js`:
`if (!url) return null; const parts = url.split("/"); return parts[parts.length - 1];` -/
def extractFilenameFromUrl (url : List Char) : Option (List Char) :=
  if url = [] then none
  else some (lastElem (splitSlash url))

/-- The specification's description of the extraction rule: the substring
after the last `'/'`, the whole string when no `'/'` occurs. -/
def afterLastSlash : List Char → List Char
  | [] => []
  | c :: cs =>
      if '/' ∈ cs then afterLastSlash cs
      else if c = '/' then cs
      else c :: cs

/-- JavaScript `String.prototype.trim()` (ASCII whitespace model). -/
def jsTrim (s : List Char) : List Char :=
  ((s.dropWhile Char.isWhitespace).reverse.dropWhile Char.isWhitespace).reverse

/-- The decimal digit character for `d` (`0 ≤ d ≤ 9`). -/
def dChar (d : Nat) : Char := Char.ofNat (48 + d)

/-- Fuel-driven decimal rendering of a natural number (structural recursion
so that concrete values reduce in the kernel). -/
def natCharsAux : Nat → Nat → List Char
  | 0, _ => []
  | fuel + 1, n =>
      if n < 10 then [dChar n]
      else natCharsAux fuel (n / 10) ++ [dChar (n % 10)]

/-- The decimal string of a natural number, as produced by JavaScript
template interpolation of an integer `Date.now()` value. -/
def natChars (n : Nat) : List Char := natCharsAux (n + 1) n

/-- Reads a digit string back to the natural number it denotes. -/
def decodeDigits (l : List Char) : Nat :=
  l.foldl (fun a c => 10 * a + (c.toNat - 48)) 0

/-- The suffix of a string starting at its last `'.'` (`none` when the
string contains no `'.'`). -/
def fromLastDot : List Char → Option (List Char)
  | [] => none
  | c :: cs =>
      match fromLastDot cs with
      | some s => some s
      | none => if c = '.' then some (c :: cs) else none

/-- Node `path.extname` on a basename: the suffix from the last dot, where
a dot in first position does not start an extension. -/
def extFromBase : List Char → List Char
  | [] => []
  | _ :: cs =>
      match fromLastDot cs with
      | some s => s
      | none => []

/-- Node `path.extname`: the extension of the final path segment. -/
def extname (p : List Char) : List Char :=
  extFromBase (afterLastSlash p)

/-- The logical name synthesized by `POST /api/upload` in `server.js`:
`` `upload_${Date.now()}${path.extname(req.file.originalname)}` ``. -/
def uploadName (t : Nat) (orig : List Char) : List Char :=
  "upload_".toList ++ natChars t ++ extname orig

/-- One GridFS file record as written by the upload handler (`contentType`
plus `metadata.contentType`; `metadata.mime` is read by the download
handler but never written by this uploader). -/
structure BlobRec where
  filename : List Char
  contentType : Option (List Char)
  metaContentType : Option (List Char)
  metaMime : Option (List Char)
  fid : Nat
  deriving DecidableEq, Repr

/-- One upload request: the `Date.now()` value observed by the handler,
the client-supplied original filename, declared mime type and size. -/
structure UploadReq where
  time : Nat
  originalname : List Char
  mimetype : List Char
  size : Nat
  deriving DecidableEq, Repr

/-- Multer acceptance in `server.js`: the declared mime type must begin
with `image/` and the payload must fit the 5 MiB limit. -/
def acceptedUpload (r : UploadReq) : Prop :=
  "image/".toList.isPrefixOf r.mimetype = true ∧ r.size ≤ 5 * 1024 * 1024

instance (r : UploadReq) : Decidable (acceptedUpload r) :=
  inferInstanceAs (Decidable (_ ∧ _))

/-- One run of `POST /api/upload`: on acceptance a GridFS record with the
synthesized logical name is written and the name returned. -/
def uploadStep (store : List BlobRec) (r : UploadReq) : List BlobRec × Option (List Char) :=
  if acceptedUpload r then
    let fn := uploadName r.time r.originalname
    (store ++ [⟨fn, some r.mimetype, some r.mimetype, none, store.length⟩], some fn)
  else (store, none)

/-- Sequential uploads, returning the final store and the logical names of
the accepted uploads in order. -/
def uploadRun : List BlobRec → List UploadReq → List BlobRec × List (List Char)
  | store, [] => (store, [])
  | store, r :: rs =>
      let st := uploadStep store r
      let rest := uploadRun st.1 rs
      (rest.1, (match st.2 with | some fn => [fn] | none => []) ++ rest.2)

/-- `db.collection("uploads.files").findOne({ filename })`: the first
stored record with the given filename. -/
def findOneByFilename (store : List BlobRec) (fn : List Char) : Option BlobRec :=
  store.find? (fun r => decide (r.filename = fn))

/-- `bucket.delete(fileDoc._id)`: removes the GridFS file with that id. -/
def gridfsDeleteByFid (store : List BlobRec) (fid : Nat) : List BlobRec :=
  store.filter (fun r => decide (r.fid ≠ fid))

/-- A product record (`models/Product`), restricted to the fields the
controller touches. -/
structure Product where
  name : List Char
  description : List Char
  price : List Char
  imageUrl : List Char
  isLaunch : Bool
  deriving DecidableEq, Repr

/-- The body of a `PUT /api/products/:id` request. -/
structure UpdateReq where
  name : List Char
  description : List Char
  price : Option (List Char)
  imageUrl : List Char
  isNewRelease : Bool
  deriving DecidableEq, Repr

/-- The product under update together with the GridFS store. -/
structure PState where
  produto : Product
  store : List BlobRec
  deriving DecidableEq, Repr

/-- `updateProduct` from `controllers/productController.js`: when the
submitted `imageUrl` is truthy and differs from the stored one, the blob
named by the final path segment of the old URL is looked up and, when
found, deleted from the bucket; then the product fields are rewritten. -/
def updateProduct (st : PState) (req : UpdateReq) : PState :=
  let store' :=
    if req.imageUrl ≠ [] ∧ st.produto.imageUrl ≠ req.imageUrl then
      match extractFilenameFromUrl st.produto.imageUrl with
      | none => st.store
      | some oldFn =>
          if oldFn = [] then st.store
          else
            match findOneByFilename st.store oldFn with
            | none => st.store
            | some fileDoc => gridfsDeleteByFid st.store fileDoc.fid
    else st.store
  { produto :=
      { name := jsTrim req.name
        description := jsTrim req.description
        price := req.price.getD []
        imageUrl := jsTrim req.imageUrl
        isLaunch := req.isNewRelease }
    store := store' }

/-- JavaScript `a || b` specialised to strings: `b` when `a` is absent or
empty (falsy), else `a`. -/
def jsorStr (o : Option (List Char)) (d : List Char) : List Char :=
  match o with
  | none => d
  | some s => if s = [] then d else s

/-- The content type chosen by `GET /api/files/:filename` in `server.js`:
`file.contentType || file.metadata.contentType || file.metadata.mime ||
'application/octet-stream'`. -/
def chooseMime (f : BlobRec) : List Char :=
  jsorStr f.contentType
    (jsorStr f.metaContentType
      (jsorStr f.metaMime "application/octet-stream".toList))

/-- The `Content-Type` of a download response: `none` models the 404
not-found reply, `some ct` a streamed body with content type `ct`. -/
def downloadCT (store : List BlobRec) (fn : List Char) : Option (List Char) :=
  match findOneByFilename store fn with
  | none => none
  | some f => some (chooseMime f)

/-- The upstream HTTP response observed by the image proxy. -/
structure UpstreamResp where
  contentType : Option (List Char)
  body : List Nat
  deriving DecidableEq, Repr

/-- The proxy's reply: HTTP status, forwarded content type, forwarded
body bytes. -/
structure ProxyOut where
  status : Nat
  contentType : Option (List Char)
  body : List Nat
  deriving DecidableEq, Repr

/-- `r.headers['content-type'] || ''` in the proxy handler. -/
def upstreamCT (r : UpstreamResp) : List Char :=
  (r.contentType).getD []

/-- `GET /api/image-proxy` in `server.js`, from the point where the
upstream response arrives: a content type not starting with `image/`
yields 415 with no forwarded bytes; otherwise the body is piped through
with the upstream content type. -/
def imageProxyRespond (r : UpstreamResp) : ProxyOut :=
  if "image/".toList.isPrefixOf (upstreamCT r) then
    { status := 200, contentType := some (upstreamCT r), body := r.body }
  else
    { status := 415, contentType := none, body := [] }

/-- One carousel document (`models/Carousel`). `cid` models the Mongo
`_id`. -/
structure CItem where
  cid : Nat
  position : Nat
  imageUrl : List Char
  fullImageUrl : Option (List Char)
  alt : Option (List Char)
  caption : Option (List Char)
  deriving DecidableEq, Repr

/-- The ids of the stored carousel documents, in storage order. -/
def cids (db : List CItem) : List Nat :=
  db.map fun it => it.cid

/-- The stored positions, in storage order. -/
def positions (db : List CItem) : List Nat :=
  db.map fun it => it.position

/-- Dense ordering: the multiset of positions is exactly `{0, …, n-1}`. -/
def dense (db : List CItem) : Prop :=
  (positions db).Perm (List.range db.length)

/-- `CarouselModel.findByIdAndUpdate(id, { position })`: rewrites the
position of the document with the given id; a no-op when the id matches
no document. -/
def updateById (db : List CItem) (tid : Nat) (pos : Nat) : List CItem :=
  db.map fun it => if it.cid = tid then { it with position := pos } else it

/-- `order.map((id, idx) => findByIdAndUpdate(id, { position: idx }))`
starting at index `i`. -/
def applyOrderFrom : Nat → List Nat → List CItem → List CItem
  | _, [], db => db
  | i, tid :: rest, db => applyOrderFrom (i + 1) rest (updateById db tid i)

/-- The state transition of `POST /api/carousel/reorder` on a well-formed
body `{ order }`. -/
def reorderOp (db : List CItem) (order : List Nat) : List CItem :=
  applyOrderFrom 0 order db

/-- Outcome of the reorder endpoint: 200 success or the 400 reply for a
non-array body.  (The handler has no other failure reply.) -/
inductive ReorderOutcome
  | ok
  | badRequest
  deriving DecidableEq, Repr

/-- `POST /api/carousel/reorder`: a missing/non-array `order` is a 400;
otherwise every listed id is updated and the handler replies 200. -/
def reorderEndpoint (db : List CItem) (body : Option (List Nat)) :
    ReorderOutcome × List CItem :=
  match body with
  | none => (ReorderOutcome.badRequest, db)
  | some order => (ReorderOutcome.ok, reorderOp db order)

/-- `CarouselModel.find().sort({ position: 1 })`. -/
def sortByPosition (db : List CItem) : List CItem :=
  List.insertionSort (fun a b => a.position ≤ b.position) db

/-- The reindex loop of `DELETE /api/carousel/:id`: the `idx`-th survivor
(in position order) is rewritten to position `idx` unless it already has
it. -/
def reindexFrom : Nat → List CItem → List CItem
  | _, [] => []
  | i, it :: rest =>
      (if it.position = i then it else { it with position := i }) :: reindexFrom (i + 1) rest

/-- The `findByIdAndUpdate` writes issued by the reindex loop, as
`(id, new position)` pairs. -/
def reindexWritesFrom : Nat → List CItem → List (Nat × Nat)
  | _, [] => []
  | i, it :: rest =>
      (if it.position ≠ i then [(it.cid, i)] else []) ++ reindexWritesFrom (i + 1) rest

/-- `CarouselModel.findById`-style lookup used to model
`findByIdAndDelete`'s found/not-found result. -/
def findById (db : List CItem) (tid : Nat) : Option CItem :=
  db.find? (fun it => decide (it.cid = tid))

/-- The survivors of a delete: every stored document except the target. -/
def survivors (db : List CItem) (tid : Nat) : List CItem :=
  db.filter fun it => decide (it.cid ≠ tid)

/-- `DELETE /api/carousel/:id`: a missing id is a 404 no-op; otherwise the
document is removed and all survivors are read in position order and
reindexed to `0..n-2`. -/
def deleteOp (db : List CItem) (tid : Nat) : List CItem :=
  match findById db tid with
  | none => db
  | some _ =>
      reindexFrom 0 (sortByPosition (survivors db tid))

/-- The position writes issued by `DELETE /api/carousel/:id`. -/
def deleteWrites (db : List CItem) (tid : Nat) : List (Nat × Nat) :=
  match findById db tid with
  | none => []
  | some _ =>
      reindexWritesFrom 0 (sortByPosition (survivors db tid))

/-- Truthy-guarded trim of an optional field, as in
`fullImageUrl ? String(fullImageUrl).trim() : undefined`. -/
def optTrim (o : Option (List Char)) : Option (List Char) :=
  match o with
  | none => none
  | some s => if s = [] then none else some (jsTrim s)

/-- `POST /api/carousel`: rejects an empty `imageUrl`; otherwise appends a
new document with `position = countDocuments()`. -/
def appendOp (db : List CItem) (tid : Nat) (img : List Char)
    (full alt cap : Option (List Char)) : List CItem :=
  if img = [] then db
  else db ++ [⟨tid, db.length, jsTrim img, optTrim full, optTrim alt, optTrim cap⟩]

/-- One carousel mutation request. -/
inductive COp
  | append (tid : Nat) (img : List Char) (full alt cap : Option (List Char))
  | deleteItem (tid : Nat)
  | reorder (order : List Nat)
  deriving DecidableEq, Repr

/-- Applies one carousel mutation. -/
def applyOp (db : List CItem) : COp → List CItem
  | .append tid img full alt cap => appendOp db tid img full alt cap
  | .deleteItem tid => deleteOp db tid
  | .reorder order => reorderOp db order

/-- Applies a sequence of carousel mutations, one at a time. -/
def applyOps (db : List CItem) (ops : List COp) : List CItem :=
  ops.foldl applyOp db

/-- Validity of one mutation against the current collection: an append
uses a fresh Mongo id (ids are unique by construction), and a reorder
supplies exactly the current id set. -/
def validOp (db : List CItem) : COp → Prop
  | .append tid _ _ _ _ => tid ∉ cids db
  | .deleteItem _ => True
  | .reorder order => order.Perm (cids db)

/-- Validity of a mutation sequence, each one judged on the state it is
applied to. -/
def validOps : List CItem → List COp → Prop
  | _, [] => True
  | db, op :: rest => validOp db op ∧ validOps (applyOp db op) rest

instance decValidOp (db : List CItem) (op : COp) : Decidable (validOp db op) :=
  match op with
  | .append tid _ _ _ _ => inferInstanceAs (Decidable (tid ∉ cids db))
  | .deleteItem _ => inferInstanceAs (Decidable True)
  | .reorder order => inferInstanceAs (Decidable (order.Perm (cids db)))

instance decValidOps : (db : List CItem) → (ops : List COp) → Decidable (validOps db ops)
  | _, [] => inferInstanceAs (Decidable True)
  | db, op :: rest =>
      haveI := decValidOps (applyOp db op) rest
      inferInstanceAs (Decidable (validOp db op ∧ validOps (applyOp db op) rest))

instance decDense (db : List CItem) : Decidable (dense db) :=
  inferInstanceAs (Decidable (List.Perm _ _))

instance : IsTotal CItem fun a b => a.position ≤ b.position :=
  ⟨fun a b => Nat.le_total a.position b.position⟩

instance : IsTrans CItem fun a b => a.position ≤ b.position :=
  ⟨fun _ _ _ => Nat.le_trans⟩

lemma splitSlash_ne_nil (l : List Char) : splitSlash l ≠ [] := by
  cases l with
  | nil => simp [splitSlash]
  | cons c cs =>
      simp only [splitSlash]
      split
      · simp
      · cases h : splitSlash cs <;> simp

lemma splitSlash_of_not_mem {l : List Char} (h : '/' ∉ l) : splitSlash l = [l] := by
  induction l with
  | nil => rfl
  | cons c cs ih =>
      simp only [List.mem_cons, not_or] at h
      simp only [splitSlash, if_neg (Ne.symm h.1), ih h.2]

lemma afterLastSlash_of_not_mem {l : List Char} (h : '/' ∉ l) : afterLastSlash l = l := by
  cases l with
  | nil => rfl
  | cons c cs =>
      simp only [List.mem_cons, not_or] at h
      simp only [afterLastSlash, if_neg h.2, if_neg (Ne.symm h.1)]

lemma lastElem_cons_of_ne_nil {x : List Char} {xs : List (List Char)} (h : xs ≠ []) :
    lastElem (x :: xs) = lastElem xs := by
  cases xs with
  | nil => exact absurd rfl h
  | cons y ys => rfl

lemma two_le_length_splitSlash {l : List Char} (h : '/' ∈ l) :
    2 ≤ (splitSlash l).length := by
  induction l with
  | nil => cases h
  | cons c cs ih =>
      by_cases hc : c = '/'
      · have h1 : 1 ≤ (splitSlash cs).length :=
          List.length_pos.mpr (splitSlash_ne_nil cs)
        simp only [splitSlash, if_pos hc, List.length_cons]
        omega
      · have hm : '/' ∈ cs := by
          rcases List.mem_cons.mp h with h' | h'
          · exact absurd h'.symm hc
          · exact h'
        have h2 := ih hm
        simp only [splitSlash, if_neg hc]
        cases hsp : splitSlash cs with
        | nil => exact absurd hsp (splitSlash_ne_nil cs)
        | cons p ps =>
            rw [hsp] at h2
            simpa using h2

lemma lastElem_splitSlash_cons {c : Char} {cs : List Char} (h : '/' ∈ cs) :
    lastElem (splitSlash (c :: cs)) = lastElem (splitSlash cs) := by
  by_cases hc : c = '/'
  · simp only [splitSlash, if_pos hc]
    exact lastElem_cons_of_ne_nil (splitSlash_ne_nil cs)
  · simp only [splitSlash, if_neg hc]
    cases hsp : splitSlash cs with
    | nil => exact absurd hsp (splitSlash_ne_nil cs)
    | cons p ps =>
        have h2 := two_le_length_splitSlash h
        rw [hsp] at h2
        have hps : ps ≠ [] := by
          cases ps with
          | nil => simp at h2
          | cons q qs => simp
        rw [lastElem_cons_of_ne_nil hps, lastElem_cons_of_ne_nil hps]

lemma lastElem_splitSlash (l : List Char) :
    lastElem (splitSlash l) = afterLastSlash l := by
  induction l with
  | nil => rfl
  | cons c cs ih =>
      by_cases hm : '/' ∈ cs
      · rw [lastElem_splitSlash_cons hm, ih]
        simp only [afterLastSlash, if_pos hm]
      · by_cases hc : c = '/'
        · simp only [splitSlash, if_pos hc, splitSlash_of_not_mem hm]
          simp only [afterLastSlash, if_neg hm, if_pos hc]
          rfl
        · simp only [splitSlash, if_neg hc, splitSlash_of_not_mem hm]
          simp only [afterLastSlash, if_neg hm, if_neg hc]
          rfl

/-- C9: `extractFilenameFromUrl` is a total function (never throws); it
returns `none` exactly on the empty string, and otherwise the final path
segment, i.e. the substring after the last `'/'` (the whole string when
no `'/'` occurs). -/
theorem c9_extractFilename_total_lastSegment (url : List Char) :
    extractFilenameFromUrl url =
      if url = [] then none else some (afterLastSlash url) := by
  unfold extractFilenameFromUrl
  split
  · rfl
  · rw [lastElem_splitSlash]

lemma toNat_dChar {d : Nat} (h : d < 10) : (dChar d).toNat = 48 + d := by
  unfold dChar
  interval_cases d <;> decide

lemma isDigit_dChar {d : Nat} (h : d < 10) : (dChar d).isDigit = true := by
  unfold dChar
  interval_cases d <;> decide

lemma decode_append_singleton (l : List Char) (c : Char) :
    decodeDigits (l ++ [c]) = 10 * decodeDigits l + (c.toNat - 48) := by
  unfold decodeDigits
  rw [List.foldl_append]
  rfl

lemma decode_natCharsAux : ∀ fuel n, n < fuel → decodeDigits (natCharsAux fuel n) = n := by
  intro fuel
  induction fuel with
  | zero => intro n h; omega
  | succ fuel ih =>
      intro n h
      by_cases h10 : n < 10
      · simp only [natCharsAux, if_pos h10]
        unfold decodeDigits
        simp only [List.foldl_cons, List.foldl_nil]
        rw [toNat_dChar h10]
        omega
      · have hpos : 0 < n := by omega
        have hlt : n / 10 < n := Nat.div_lt_self hpos (by omega)
        have hrec : n / 10 < fuel := by omega
        simp only [natCharsAux, if_neg h10]
        rw [decode_append_singleton, ih _ hrec, toNat_dChar (Nat.mod_lt _ (by omega))]
        omega

lemma decode_natChars (n : Nat) : decodeDigits (natChars n) = n :=
  decode_natCharsAux (n + 1) n (by omega)

lemma natChars_inj {m n : Nat} (h : natChars m = natChars n) : m = n := by
  have := congrArg decodeDigits h
  rwa [decode_natChars, decode_natChars] at this

lemma mem_natCharsAux_isDigit : ∀ fuel n c, c ∈ natCharsAux fuel n → c.isDigit = true := by
  intro fuel
  induction fuel with
  | zero => intro n c h; cases h
  | succ fuel ih =>
      intro n c h
      by_cases h10 : n < 10
      · simp only [natCharsAux, if_pos h10, List.mem_singleton] at h
        subst h
        exact isDigit_dChar h10
      · simp only [natCharsAux, if_neg h10, List.mem_append, List.mem_singleton] at h
        rcases h with h | h
        · exact ih _ _ h
        · subst h
          exact isDigit_dChar (Nat.mod_lt _ (by omega))

/-- Shape of the extension string: empty, or starting with a dot. -/
def dotShaped (e : List Char) : Prop := e = [] ∨ ∃ s, e = '.' :: s

lemma fromLastDot_shape : ∀ l s, fromLastDot l = some s → ∃ t, s = '.' :: t := by
  intro l
  induction l with
  | nil => intro s h; cases h
  | cons c cs ih =>
      intro s h
      simp only [fromLastDot] at h
      cases hcs : fromLastDot cs with
      | some s' =>
          rw [hcs] at h
          cases h
          exact ih _ hcs
      | none =>
          rw [hcs] at h
          by_cases hc : c = '.'
          · rw [if_pos hc] at h
            cases h
            exact ⟨cs, by rw [hc]⟩
          · rw [if_neg hc] at h
            cases h

lemma mem_natChars_isDigit (n : Nat) (c : Char) (h : c ∈ natChars n) :
    c.isDigit = true :=
  mem_natCharsAux_isDigit (n + 1) n c h

lemma extname_dotShaped (p : List Char) : dotShaped (extname p) := by
  unfold extname
  cases h : afterLastSlash p with
  | nil => exact Or.inl rfl
  | cons c cs =>
      cases hcs : fromLastDot cs with
      | some s =>
          obtain ⟨t, ht⟩ := fromLastDot_shape cs s hcs
          exact Or.inr ⟨t, by simp only [extFromBase, hcs, ht]⟩
      | none => exact Or.inl (by simp only [extFromBase, hcs])

lemma takeWhile_digits_append (l e : List Char)
    (h1 : ∀ c ∈ l, c.isDigit = true) (h2 : dotShaped e) :
    (l ++ e).takeWhile Char.isDigit = l := by
  induction l with
  | nil =>
      rcases h2 with rfl | ⟨s, rfl⟩
      · rfl
      · simp only [List.nil_append, List.takeWhile_cons]
        rw [if_neg (by decide)]
  | cons a as ih =>
      simp only [List.cons_append, List.takeWhile_cons,
        if_pos (h1 a (List.mem_cons_self a as))]
      rw [ih (fun c hc => h1 c (List.mem_cons_of_mem a hc))]

lemma uploadName_inj_time {t₁ t₂ : Nat} {o₁ o₂ : List Char}
    (h : uploadName t₁ o₁ = uploadName t₂ o₂) : t₁ = t₂ := by
  unfold uploadName at h
  rw [List.append_assoc, List.append_assoc] at h
  have h2 := List.append_cancel_left h
  have h3 := congrArg (List.takeWhile Char.isDigit) h2
  rw [takeWhile_digits_append (natChars t₁) (extname o₁)
        (mem_natChars_isDigit t₁) (extname_dotShaped o₁),
      takeWhile_digits_append (natChars t₂) (extname o₂)
        (mem_natChars_isDigit t₂) (extname_dotShaped o₂)] at h3
  exact natChars_inj h3

lemma uploadRun_names (store : List BlobRec) (reqs : List UploadReq)
    (hacc : ∀ r ∈ reqs, acceptedUpload r) :
    (uploadRun store reqs).2 =
      reqs.map (fun r => uploadName r.time r.originalname) := by
  induction reqs generalizing store with
  | nil => rfl
  | cons r rs ih =>
      have ha : acceptedUpload r := hacc r (List.mem_cons_self r rs)
      simp only [uploadRun, uploadStep, if_pos ha, List.map_cons]
      rw [ih _ (fun x hx => hacc x (List.mem_cons_of_mem r hx))]
      rfl

/-- C4 counterexample: two uploads accepted in the same `Date.now()`
millisecond with the same original extension synthesize the *same*
logical name `upload_5.png`, so the claimed unconditional pairwise
distinctness of the names of sequential accepted uploads is false. -/
theorem c4_counterexample :
    (∀ r ∈ ([⟨5, "a.png".toList, "image/png".toList, 100⟩,
             ⟨5, "b.png".toList, "image/png".toList, 200⟩] : List UploadReq),
        acceptedUpload r) ∧
    ¬ ((uploadRun []
          [⟨5, "a.png".toList, "image/png".toList, 100⟩,
           ⟨5, "b.png".toList, "image/png".toList, 200⟩]).2).Nodup := by
  decide

/-- C4 amended: for every sequence of accepted uploads whose `Date.now()`
tokens are pairwise distinct, the synthesized logical names are pairwise
distinct.  (The code performs no collision check at all, so neither
same-millisecond uploads nor names already present in the store are
guarded against.) -/
theorem c4_upload_names_distinct (store : List BlobRec) (reqs : List UploadReq)
    (hacc : ∀ r ∈ reqs, acceptedUpload r)
    (ht : (reqs.map UploadReq.time).Nodup) :
    ((uploadRun store reqs).2).Nodup := by
  rw [uploadRun_names store reqs hacc]
  have hp : List.Pairwise (fun a b : UploadReq => a.time ≠ b.time) reqs :=
    List.pairwise_map.mp ht
  exact List.pairwise_map.mpr
    (hp.imp fun hne heq => hne (uploadName_inj_time heq))

/-- Witness for C4 (amended) at a concrete pair of uploads. -/
theorem c4_upload_names_distinct_witness :
    (∀ r ∈ ([⟨5, "a.png".toList, "image/png".toList, 100⟩,
             ⟨7, "b.png".toList, "image/png".toList, 200⟩] : List UploadReq),
        acceptedUpload r) ∧
    (([⟨5, "a.png".toList, "image/png".toList, 100⟩,
       ⟨7, "b.png".toList, "image/png".toList, 200⟩] : List UploadReq).map
        UploadReq.time).Nodup ∧
    ((uploadRun []
        [⟨5, "a.png".toList, "image/png".toList, 100⟩,
         ⟨7, "b.png".toList, "image/png".toList, 200⟩]).2).Nodup :=
  ⟨by decide, by decide,
    c4_upload_names_distinct []
      [⟨5, "a.png".toList, "image/png".toList, 100⟩,
       ⟨7, "b.png".toList, "image/png".toList, 200⟩]
      (by decide) (by decide)⟩

lemma extractFilename_of_ne_nil {url : List Char} (h : url ≠ []) :
    extractFilenameFromUrl url = some (afterLastSlash url) := by
  unfold extractFilenameFromUrl
  rw [if_neg h, lastElem_splitSlash]

lemma findOneByFilename_eq_none_of_no_empty {store : List BlobRec}
    (hne : ∀ r ∈ store, r.filename ≠ []) :
    findOneByFilename store [] = none := by
  unfold findOneByFilename
  exact List.find?_eq_none.mpr fun r hr => by
    simp only [decide_eq_true_eq]
    exact hne r hr

/-- C5: if the submitted `imageUrl` is non-empty and differs from the
stored one, then after `updateProduct` a read of the final path segment
of the old URL fails with not-found: the referenced blob (when present)
has been deleted from the bucket.  Ambient store invariants: filenames
are unique and non-empty. -/
theorem c5_update_deletes_old_blob (st : PState) (req : UpdateReq)
    (h1 : req.imageUrl ≠ [])
    (h2 : st.produto.imageUrl ≠ req.imageUrl)
    (hnodup : (st.store.map BlobRec.filename).Nodup)
    (hne : ∀ r ∈ st.store, r.filename ≠ []) :
    findOneByFilename (updateProduct st req).store
      (afterLastSlash st.produto.imageUrl) = none := by
  unfold updateProduct
  simp only
  rw [if_pos ⟨h1, h2⟩]
  by_cases hold : st.produto.imageUrl = []
  · rw [hold]
    simp only [extractFilenameFromUrl, if_pos rfl]
    exact findOneByFilename_eq_none_of_no_empty hne
  · rw [extractFilename_of_ne_nil hold]
    simp only
    by_cases hfn : afterLastSlash st.produto.imageUrl = []
    · rw [if_pos hfn, hfn]
      exact findOneByFilename_eq_none_of_no_empty hne
    · rw [if_neg hfn]
      cases hdoc : findOneByFilename st.store (afterLastSlash st.produto.imageUrl) with
      | none => exact hdoc
      | some doc =>
          have hdocmem : doc ∈ st.store := List.mem_of_find?_eq_some hdoc
          have hdocfn : doc.filename = afterLastSlash st.produto.imageUrl := by
            have := List.find?_some hdoc
            simpa using this
          unfold findOneByFilename gridfsDeleteByFid
          exact List.find?_eq_none.mpr fun r hr => by
            simp only [decide_eq_true_eq]
            intro hrfn
            have hrmem := (List.mem_filter.mp hr).1
            have hrfid := (List.mem_filter.mp hr).2
            simp only [decide_eq_true_eq] at hrfid
            have : r = doc :=
              List.inj_on_of_nodup_map hnodup hrmem hdocmem (hrfn.trans hdocfn.symm)
            exact hrfid (by rw [this])

/-- Witness for C5 at a concrete state: a product whose old image URL
names the single stored blob, updated to a different URL. -/
theorem c5_update_deletes_old_blob_witness :
    (("http://h/api/files/upload_1.png".toList : List Char) ≠ []) ∧
    findOneByFilename
      (updateProduct
        ⟨⟨"n".toList, "d".toList, [], "http://h/api/files/upload_0.png".toList, false⟩,
         [⟨"upload_0.png".toList, some "image/png".toList, none, none, 3⟩]⟩
        ⟨"n".toList, "d".toList, none, "http://h/api/files/upload_1.png".toList, false⟩).store
      (afterLastSlash "http://h/api/files/upload_0.png".toList) = none :=
  ⟨by decide,
    c5_update_deletes_old_blob
      ⟨⟨"n".toList, "d".toList, [], "http://h/api/files/upload_0.png".toList, false⟩,
       [⟨"upload_0.png".toList, some "image/png".toList, none, none, 3⟩]⟩
      ⟨"n".toList, "d".toList, none, "http://h/api/files/upload_1.png".toList, false⟩
      (by decide) (by decide) (by decide) (by decide)⟩

/-- C6: when the submitted `imageUrl` equals the stored one, no blob is
deleted: the store is unchanged and every read that succeeded before the
update still returns the same record after it. -/
theorem c6_update_same_url_keeps_blob (st : PState) (req : UpdateReq)
    (heq : req.imageUrl = st.produto.imageUrl) :
    (updateProduct st req).store = st.store ∧
    ∀ fn r, findOneByFilename st.store fn = some r →
      findOneByFilename (updateProduct st req).store fn = some r := by
  have hstore : (updateProduct st req).store = st.store := by
    unfold updateProduct
    simp only
    rw [if_neg]
    intro hand
    exact hand.2 heq.symm
  exact ⟨hstore, fun fn r h => by rw [hstore]; exact h⟩

/-- Witness for C6 at a concrete state. -/
theorem c6_update_same_url_keeps_blob_witness :
    ((⟨"n".toList, "d".toList, none, "http://h/api/files/upload_0.png".toList, false⟩ :
        UpdateReq).imageUrl =
      "http://h/api/files/upload_0.png".toList) ∧
    ((updateProduct
        ⟨⟨"n".toList, "d".toList, [], "http://h/api/files/upload_0.png".toList, false⟩,
         [⟨"upload_0.png".toList, some "image/png".toList, none, none, 3⟩]⟩
        ⟨"n".toList, "d".toList, none, "http://h/api/files/upload_0.png".toList, false⟩).store =
      [⟨"upload_0.png".toList, some "image/png".toList, none, none, 3⟩] ∧
    ∀ fn r,
      findOneByFilename
        [⟨"upload_0.png".toList, some "image/png".toList, none, none, 3⟩] fn = some r →
      findOneByFilename
        (updateProduct
          ⟨⟨"n".toList, "d".toList, [], "http://h/api/files/upload_0.png".toList, false⟩,
           [⟨"upload_0.png".toList, some "image/png".toList, none, none, 3⟩]⟩
          ⟨"n".toList, "d".toList, none, "http://h/api/files/upload_0.png".toList, false⟩).store
        fn = some r) :=
  ⟨by decide,
    c6_update_same_url_keeps_blob
      ⟨⟨"n".toList, "d".toList, [], "http://h/api/files/upload_0.png".toList, false⟩,
       [⟨"upload_0.png".toList, some "image/png".toList, none, none, 3⟩]⟩
      ⟨"n".toList, "d".toList, none, "http://h/api/files/upload_0.png".toList, false⟩
      (by decide)⟩

/-- C7: when a stored blob is found, the download response content type
is exactly `chooseMime` of its record: the stored `contentType` (or the
recorded metadata type) when one is a non-empty string, and the generic
binary fallback `application/octet-stream` otherwise; the chosen type
depends only on the record's mime fields, never on the logical name or
its extension. -/
theorem c7_download_content_type (store : List BlobRec) (fn : List Char) (f : BlobRec)
    (hf : findOneByFilename store fn = some f) :
    downloadCT store fn = some (chooseMime f) ∧
    (∀ m, f.contentType = some m → m ≠ [] → chooseMime f = m) ∧
    ((f.contentType = none ∨ f.contentType = some []) →
      (f.metaContentType = none ∨ f.metaContentType = some []) →
      (f.metaMime = none ∨ f.metaMime = some []) →
      chooseMime f = "application/octet-stream".toList) ∧
    (∀ g : BlobRec, g.contentType = f.contentType →
      g.metaContentType = f.metaContentType → g.metaMime = f.metaMime →
      chooseMime g = chooseMime f) := by
  refine ⟨by unfold downloadCT; rw [hf], ?_, ?_, ?_⟩
  · intro m hm hmne
    unfold chooseMime jsorStr
    rw [hm]
    simp only [if_neg hmne]
  · intro hc hmc hmm
    unfold chooseMime jsorStr
    rcases hc with hc | hc <;> rw [hc] <;>
      (rcases hmc with hmc | hmc <;> rw [hmc] <;>
        (rcases hmm with hmm | hmm <;> simp [hmm]))
  · intro g h1 h2 h3
    unfold chooseMime
    rw [h1, h2, h3]

/-- Witness for C7 at a concrete store. -/
theorem c7_download_content_type_witness :
    (findOneByFilename
        [⟨"upload_0.png".toList, some "image/png".toList, none, none, 3⟩]
        "upload_0.png".toList =
      some ⟨"upload_0.png".toList, some "image/png".toList, none, none, 3⟩) ∧
    downloadCT [⟨"upload_0.png".toList, some "image/png".toList, none, none, 3⟩]
        "upload_0.png".toList =
      some (chooseMime ⟨"upload_0.png".toList, some "image/png".toList, none, none, 3⟩) :=
  ⟨by decide,
    (c7_download_content_type
      [⟨"upload_0.png".toList, some "image/png".toList, none, none, 3⟩]
      "upload_0.png".toList
      ⟨"upload_0.png".toList, some "image/png".toList, none, none, 3⟩
      (by decide)).1⟩

/-- C8: when the upstream response's content type does not begin with
`image/` (including a missing content-type header), the proxy replies 415
and forwards zero upstream body bytes. -/
theorem c8_proxy_rejects_non_image (r : UpstreamResp)
    (h : "image/".toList.isPrefixOf (upstreamCT r) = false) :
    (imageProxyRespond r).status = 415 ∧ (imageProxyRespond r).body = [] := by
  unfold imageProxyRespond
  rw [h]
  simp

/-- Witness for C8: a PDF upstream response. -/
theorem c8_proxy_rejects_non_image_witness :
    ("image/".toList.isPrefixOf
        (upstreamCT ⟨some "application/pdf".toList, [1, 2, 3]⟩) = false) ∧
    (imageProxyRespond ⟨some "application/pdf".toList, [1, 2, 3]⟩).status = 415 ∧
    (imageProxyRespond ⟨some "application/pdf".toList, [1, 2, 3]⟩).body = [] :=
  ⟨by decide,
    c8_proxy_rejects_non_image ⟨some "application/pdf".toList, [1, 2, 3]⟩ (by decide)⟩

lemma updateById_length (db : List CItem) (tid pos : Nat) :
    (updateById db tid pos).length = db.length := by
  unfold updateById
  exact List.length_map _ _

lemma applyOrderFrom_length :
    ∀ (order : List Nat) (i : Nat) (db : List CItem),
      (applyOrderFrom i order db).length = db.length := by
  intro order
  induction order with
  | nil => intro i db; rfl
  | cons a rest ih =>
      intro i db
      simp only [applyOrderFrom]
      rw [ih, updateById_length]

lemma mem_updateById_of_ne {db : List CItem} {it : CItem} (h : it ∈ db)
    {tid : Nat} (hne : it.cid ≠ tid) (pos : Nat) : it ∈ updateById db tid pos := by
  unfold updateById
  exact List.mem_map.mpr ⟨it, h, by rw [if_neg hne]⟩

lemma mem_applyOrderFrom_of_not_listed :
    ∀ (order : List Nat) (i : Nat) (db : List CItem) (it : CItem),
      it ∈ db → it.cid ∉ order → it ∈ applyOrderFrom i order db := by
  intro order
  induction order with
  | nil => intro i db it h _; exact h
  | cons a rest ih =>
      intro i db it h hno
      simp only [List.mem_cons, not_or] at hno
      exact ih _ _ it (mem_updateById_of_ne h hno.1 i) hno.2

/-- C10: reorder with an arbitrary id array: the endpoint succeeds (ids
matching no stored document are skipped, never an error), the collection
size is unchanged, and every stored item whose id is not listed survives
completely unchanged (same position and all other fields). -/
theorem c10_reorder_skips_unknown_preserves_unlisted
    (db : List CItem) (order : List Nat) :
    (reorderEndpoint db (some order)).1 = ReorderOutcome.ok ∧
    (reorderOp db order).length = db.length ∧
    ∀ it ∈ db, it.cid ∉ order → it ∈ reorderOp db order := by
  refine ⟨rfl, applyOrderFrom_length order 0 db, ?_⟩
  intro it hmem hno
  exact mem_applyOrderFrom_of_not_listed order 0 db it hmem hno

lemma applyOrderFrom_eq_map :
    ∀ (order : List Nat), order.Nodup →
      ∀ (i : Nat) (db : List CItem),
        applyOrderFrom i order db =
          db.map fun it =>
            if it.cid ∈ order then { it with position := i + order.indexOf it.cid }
            else it := by
  intro order
  induction order with
  | nil =>
      intro _ i db
      simp only [applyOrderFrom]
      have h : ∀ it ∈ db,
          it = (fun it : CItem =>
            if it.cid ∈ ([] : List Nat) then
              { it with position := i + ([] : List Nat).indexOf it.cid }
            else it) it := by
        intro it _
        simp
      calc db = db.map id := (List.map_id db).symm
        _ = _ := List.map_congr_left fun a ha => (h a ha).symm
  | cons a rest ih =>
      intro hnd i db
      have hanr : a ∉ rest := (List.nodup_cons.mp hnd).1
      have hr : rest.Nodup := (List.nodup_cons.mp hnd).2
      simp only [applyOrderFrom]
      rw [ih hr (i + 1) (updateById db a i)]
      unfold updateById
      rw [List.map_map]
      refine List.map_congr_left ?_
      intro it _
      by_cases hit : it.cid = a
      · have h1 : ({ it with position := i } : CItem).cid = it.cid := rfl
        simp only [Function.comp, if_pos hit, h1]
        rw [if_neg (by rw [hit]; exact hanr)]
        have hidx : (a :: rest).indexOf it.cid = 0 := by
          rw [hit]; exact List.indexOf_cons_self a rest
        rw [if_pos (by rw [hit]; exact List.mem_cons_self a rest), hidx,
          Nat.add_zero]
      · simp only [Function.comp, if_neg hit]
        by_cases hmem : it.cid ∈ rest
        · rw [if_pos hmem,
            if_pos (List.mem_cons_of_mem a hmem)]
          have hidx : (a :: rest).indexOf it.cid = (rest.indexOf it.cid) + 1 :=
            List.indexOf_cons_ne rest (fun he => hit he.symm)
          rw [hidx]
          have harith : i + (rest.indexOf it.cid + 1) = i + 1 + rest.indexOf it.cid := by
            omega
          rw [harith]
        · rw [if_neg hmem, if_neg (by
            intro hc
            rcases List.mem_cons.mp hc with hc | hc
            · exact hit hc
            · exact hmem hc)]

/-- C3 counterexample: two stored items with ids 1, 2; the supplied order
`[2]` omits id 1, yet the endpoint replies success and rewrites item 2's
position (claim: it must fail with `InvalidOrder` and change nothing). -/
theorem c3_counterexample :
    (reorderEndpoint
        [⟨1, 0, "a".toList, none, none, none⟩, ⟨2, 1, "b".toList, none, none, none⟩]
        (some [2])).1 = ReorderOutcome.ok ∧
    (reorderEndpoint
        [⟨1, 0, "a".toList, none, none, none⟩, ⟨2, 1, "b".toList, none, none, none⟩]
        (some [2])).2 ≠
      [⟨1, 0, "a".toList, none, none, none⟩, ⟨2, 1, "b".toList, none, none, none⟩] := by
  decide

/-- C3 amended: the handler performs no id-set validation and has no
`InvalidOrder` failure: for any duplicate-free id array it replies
success and assigns each listed id that matches a stored item the
position equal to its index in the array, leaving all other items (and
unknown listed ids) untouched. -/
theorem c3_reorder_assigns_indices (db : List CItem) (order : List Nat)
    (hnd : order.Nodup) :
    (reorderEndpoint db (some order)).1 = ReorderOutcome.ok ∧
    reorderOp db order =
      db.map fun it =>
        if it.cid ∈ order then { it with position := order.indexOf it.cid }
        else it := by
  refine ⟨rfl, ?_⟩
  unfold reorderOp
  rw [applyOrderFrom_eq_map order hnd 0 db]
  refine List.map_congr_left ?_
  intro it _
  by_cases h : it.cid ∈ order
  · rw [if_pos h, if_pos h, Nat.zero_add]
  · rw [if_neg h, if_neg h]

/-- Witness for C3 (amended) at a concrete collection and order. -/
theorem c3_reorder_assigns_indices_witness :
    ([2, 1] : List Nat).Nodup ∧
    (reorderEndpoint
        [⟨1, 0, "a".toList, none, none, none⟩, ⟨2, 1, "b".toList, none, none, none⟩]
        (some [2, 1])).1 = ReorderOutcome.ok ∧
    reorderOp
        [⟨1, 0, "a".toList, none, none, none⟩, ⟨2, 1, "b".toList, none, none, none⟩]
        [2, 1] =
      ([⟨1, 0, "a".toList, none, none, none⟩,
        ⟨2, 1, "b".toList, none, none, none⟩] : List CItem).map fun it =>
        if it.cid ∈ ([2, 1] : List Nat) then
          { it with position := ([2, 1] : List Nat).indexOf it.cid }
        else it :=
  ⟨by decide,
    c3_reorder_assigns_indices
      [⟨1, 0, "a".toList, none, none, none⟩, ⟨2, 1, "b".toList, none, none, none⟩]
      [2, 1] (by decide)⟩

/-- Witness for C10 at a concrete collection and order. -/
theorem c10_reorder_skips_unknown_preserves_unlisted_witness :
    (reorderEndpoint
        [⟨1, 0, "a".toList, none, none, none⟩, ⟨2, 1, "b".toList, none, none, none⟩]
        (some [9, 2])).1 = ReorderOutcome.ok ∧
    (reorderOp
        [⟨1, 0, "a".toList, none, none, none⟩, ⟨2, 1, "b".toList, none, none, none⟩]
        [9, 2]).length = 2 ∧
    ∀ it ∈ ([⟨1, 0, "a".toList, none, none, none⟩,
             ⟨2, 1, "b".toList, none, none, none⟩] : List CItem),
      it.cid ∉ ([9, 2] : List Nat) →
      it ∈ reorderOp
        [⟨1, 0, "a".toList, none, none, none⟩, ⟨2, 1, "b".toList, none, none, none⟩]
        [9, 2] :=
  c10_reorder_skips_unknown_preserves_unlisted
    [⟨1, 0, "a".toList, none, none, none⟩, ⟨2, 1, "b".toList, none, none, none⟩]
    [9, 2]

lemma reindexFrom_cids : ∀ (i : Nat) (l : List CItem), cids (reindexFrom i l) = cids l := by
  intro i l
  induction l generalizing i with
  | nil => rfl
  | cons it rest ih =>
      have htail := ih (i + 1)
      simp only [cids] at htail ⊢
      simp only [reindexFrom, List.map_cons]
      by_cases h : it.position = i
      · rw [if_pos h, htail]
      · rw [if_neg h, htail]

lemma cids_map_of_cid_eq (db : List CItem) (g : CItem → CItem)
    (h : ∀ it, (g it).cid = it.cid) : cids (db.map g) = cids db := by
  unfold cids
  rw [List.map_map]
  exact List.map_congr_left fun a _ => by
    simp only [Function.comp_apply]
    exact h a

lemma positions_map (db : List CItem) (g : CItem → CItem) :
    positions (db.map g) = db.map fun it => (g it).position := by
  unfold positions
  rw [List.map_map]
  rfl

lemma reindexFrom_positions :
    ∀ (i : Nat) (l : List CItem), positions (reindexFrom i l) = List.range' i l.length := by
  intro i l
  induction l generalizing i with
  | nil => rfl
  | cons it rest ih =>
      simp only [reindexFrom, positions, List.map_cons, List.length_cons,
        List.range'_succ]
      by_cases h : it.position = i
      · rw [if_pos h]
        simp only [positions] at ih
        rw [h, ih (i + 1)]
      · rw [if_neg h]
        simp only [positions] at ih
        rw [ih (i + 1)]

lemma reindexFrom_length : ∀ (i : Nat) (l : List CItem),
    (reindexFrom i l).length = l.length := by
  intro i l
  have h := reindexFrom_positions i l
  have := congrArg List.length h
  simpa [positions] using this

lemma indexOf_self_map :
    ∀ (l : List Nat), l.Nodup → (l.map fun c => l.indexOf c) = List.range l.length := by
  intro l
  induction l with
  | nil => intro _; rfl
  | cons a rest ih =>
      intro hnd
      have hanr : a ∉ rest := (List.nodup_cons.mp hnd).1
      have hr : rest.Nodup := (List.nodup_cons.mp hnd).2
      simp only [List.map_cons, List.indexOf_cons_self, List.length_cons]
      have hstep : (rest.map fun c => (a :: rest).indexOf c) =
          rest.map fun c => ((rest.indexOf c) + 1) := by
        refine List.map_congr_left ?_
        intro c hc
        exact List.indexOf_cons_ne rest fun he => hanr (he ▸ hc)
      rw [hstep]
      have hcomp : (rest.map fun c => ((rest.indexOf c) + 1)) =
          (rest.map fun c => rest.indexOf c).map Nat.succ := by
        rw [List.map_map]
        rfl
      rw [hcomp, ih hr, List.range_succ_eq_map]

lemma cids_append_singleton (db : List CItem) (it : CItem) :
    cids (db ++ [it]) = cids db ++ [it.cid] := by
  simp [cids]

lemma positions_append_singleton (db : List CItem) (it : CItem) :
    positions (db ++ [it]) = positions db ++ [it.position] := by
  simp [positions]

lemma validOp_preserves (db : List CItem) (op : COp)
    (hnod : (cids db).Nodup) (hd : dense db) (hv : validOp db op) :
    (cids (applyOp db op)).Nodup ∧ dense (applyOp db op) := by
  cases op with
  | append tid img full alt cap =>
      simp only [applyOp, appendOp]
      by_cases himg : img = []
      · rw [if_pos himg]
        exact ⟨hnod, hd⟩
      · rw [if_neg himg]
        constructor
        · rw [cids_append_singleton]
          have hperm : (cids db ++ [tid]).Perm (tid :: cids db) :=
            List.perm_append_comm
          rw [hperm.nodup_iff, List.nodup_cons]
          exact ⟨hv, hnod⟩
        · unfold dense
          rw [positions_append_singleton]
          simp only [List.length_append, List.length_singleton, List.range_succ]
          exact hd.append (List.Perm.refl _)
  | deleteItem tid =>
      simp only [applyOp, deleteOp]
      cases hfind : findById db tid with
      | none => exact ⟨hnod, hd⟩
      | some f =>
          simp only
          set surv := survivors db tid with hsurv
          have hsub : (cids surv).Sublist (cids db) :=
            (List.filter_sublist db).map _
          have hsurvnod : (cids surv).Nodup := hnod.sublist hsub
          have hsortperm : (sortByPosition surv).Perm surv :=
            List.perm_insertionSort _ surv
          have hcids : cids (reindexFrom 0 (sortByPosition surv)) =
              cids (sortByPosition surv) := reindexFrom_cids 0 _
          constructor
          · rw [hcids]
            exact ((hsortperm.map _).nodup_iff).mpr hsurvnod
          · unfold dense
            rw [reindexFrom_positions 0 _, reindexFrom_length 0 _,
              List.range_eq_range']
  | reorder order =>
      have hndord : order.Nodup := (hv.nodup_iff).mpr hnod
      simp only [applyOp, reorderOp]
      rw [applyOrderFrom_eq_map order hndord 0 db]
      have hcidpt : ∀ it : CItem,
          ((fun it : CItem =>
            if it.cid ∈ order then { it with position := 0 + order.indexOf it.cid }
            else it) it).cid = it.cid := by
        intro it
        by_cases h : it.cid ∈ order <;> simp [h]
      constructor
      · rw [cids_map_of_cid_eq db _ hcidpt]
        exact hnod
      · unfold dense
        rw [positions_map, List.length_map]
        have hall : ∀ it ∈ db,
            ((fun it : CItem =>
              if it.cid ∈ order then { it with position := 0 + order.indexOf it.cid }
              else it) it).position = order.indexOf it.cid := by
          intro it hit
          have hmem : it.cid ∈ order :=
            hv.mem_iff.mpr (List.mem_map.mpr ⟨it, hit, rfl⟩)
          simp [hmem]
        rw [List.map_congr_left hall]
        have hmm : (db.map fun it => order.indexOf it.cid) =
            (cids db).map fun c => order.indexOf c := by
          unfold cids
          rw [List.map_map]
          rfl
        rw [hmm]
        have hp1 : ((cids db).map fun c => order.indexOf c).Perm
            (order.map fun c => order.indexOf c) :=
          (hv.symm).map _
        have hp2 : (order.map fun c => order.indexOf c) = List.range order.length :=
          indexOf_self_map order hndord
        have hlen : order.length = db.length := by
          have := hv.length_eq
          simpa [cids] using this
        rw [hp2, hlen] at hp1
        exact hp1

lemma validOps_take_good :
    ∀ (ops : List COp) (db : List CItem), (cids db).Nodup → dense db →
      validOps db ops → ∀ j,
        (cids (applyOps db (List.take j ops))).Nodup ∧
        dense (applyOps db (List.take j ops)) := by
  intro ops
  induction ops with
  | nil =>
      intro db h1 h2 _ j
      rw [List.take_nil]
      exact ⟨h1, h2⟩
  | cons op rest ih =>
      intro db h1 h2 hv j
      cases j with
      | zero => exact ⟨h1, h2⟩
      | succ j =>
          rw [List.take_succ_cons]
          have hstep := validOp_preserves db op h1 h2 hv.1
          exact ih (applyOp db op) hstep.1 hstep.2 hv.2 j

/-- C1 counterexample: starting from empty, two appends followed by the
reorder request `[2]` (a list the endpoint accepts) leave both items at
position 0, so the position multiset after this completed operation is
`{0, 0}` rather than `{0, 1}`. -/
theorem c1_counterexample :
    ¬ dense (applyOps []
      [COp.append 1 "a".toList none none none,
       COp.append 2 "b".toList none none none,
       COp.reorder [2]]) := by
  decide

/-- C1 amended: starting from the empty collection, after each completed
append / delete / reorder operation the positions are exactly
`{0, …, n-1}`, provided each reorder supplies exactly a permutation of
the ids currently stored (and appends use fresh Mongo ids); the unvalidated
handler lets an arbitrary reorder list break the invariant. -/
theorem c1_dense_invariant (ops : List COp) (h : validOps [] ops) (j : Nat) :
    dense (applyOps [] (ops.take j)) :=
  (validOps_take_good ops [] List.nodup_nil (by decide) h j).2

/-- Witness for C1 (amended): a valid four-operation run observed after
its last operation. -/
theorem c1_dense_invariant_witness :
    validOps []
      [COp.append 1 "a".toList none none none,
       COp.append 2 "b".toList none none none,
       COp.reorder [2, 1],
       COp.deleteItem 1] ∧
    dense (applyOps []
      ([COp.append 1 "a".toList none none none,
        COp.append 2 "b".toList none none none,
        COp.reorder [2, 1],
        COp.deleteItem 1].take 4)) :=
  ⟨by decide,
    c1_dense_invariant
      [COp.append 1 "a".toList none none none,
       COp.append 2 "b".toList none none none,
       COp.reorder [2, 1],
       COp.deleteItem 1] (by decide) 4⟩

lemma positions_take (n : Nat) (l : List CItem) :
    positions (List.take n l) = List.take n (positions l) := by
  unfold positions
  exact List.map_take _ l n

lemma positions_drop (n : Nat) (l : List CItem) :
    positions (List.drop n l) = List.drop n (positions l) := by
  unfold positions
  exact List.map_drop _ l n

lemma reindexFrom_shift :
    ∀ (l : List CItem) (j : Nat),
      positions l = List.range' (j + 1) l.length →
      reindexFrom j l = l.map fun it => { it with position := it.position - 1 } := by
  intro l
  induction l with
  | nil => intro j _; rfl
  | cons it rest ih =>
      intro j hpos
      simp only [positions, List.map_cons, List.length_cons, List.range'_succ] at hpos
      have h1 : it.position = j + 1 := (List.cons_eq_cons.mp hpos).1
      have h2 : List.map (fun it => it.position) rest =
          List.range' (j + 1 + 1) rest.length := (List.cons_eq_cons.mp hpos).2
      simp only [reindexFrom, List.map_cons]
      rw [if_neg (by omega), ih (j + 1) (by simpa [positions] using h2)]
      congr 1
      simp [h1]

lemma reindexWritesFrom_shift :
    ∀ (l : List CItem) (j : Nat),
      positions l = List.range' (j + 1) l.length →
      reindexWritesFrom j l = l.map fun it => (it.cid, it.position - 1) := by
  intro l
  induction l with
  | nil => intro j _; rfl
  | cons it rest ih =>
      intro j hpos
      simp only [positions, List.map_cons, List.length_cons, List.range'_succ] at hpos
      have h1 : it.position = j + 1 := (List.cons_eq_cons.mp hpos).1
      have h2 : List.map (fun it => it.position) rest =
          List.range' (j + 1 + 1) rest.length := (List.cons_eq_cons.mp hpos).2
      simp only [reindexWritesFrom, List.map_cons]
      rw [if_pos (by omega), ih (j + 1) (by simpa [positions] using h2),
        List.singleton_append]
      congr 1
      simp [h1]

lemma reindexFrom_shape :
    ∀ (l : List CItem) (j k b : Nat), j ≤ k →
      positions l = List.range' j (k - j) ++ List.range' (k + 1) b →
      reindexFrom j l = l.map fun it =>
        if it.position < k then it else { it with position := it.position - 1 } := by
  intro l
  induction l with
  | nil => intro j k b _ _; rfl
  | cons it rest ih =>
      intro j k b hjk hpos
      by_cases hlt : j < k
      · have hsub : k - j = (k - (j + 1)) + 1 := by omega
        rw [hsub, List.range'_succ] at hpos
        simp only [positions, List.map_cons, List.cons_append] at hpos
        have h1 : it.position = j := (List.cons_eq_cons.mp hpos).1
        have h2 : List.map (fun it => it.position) rest =
            List.range' (j + 1) (k - (j + 1)) ++ List.range' (k + 1) b :=
          (List.cons_eq_cons.mp hpos).2
        simp only [reindexFrom, List.map_cons]
        rw [if_pos h1, ih (j + 1) k b (by omega) (by simpa [positions] using h2)]
        congr 1
        rw [if_pos (by omega)]
      · have hj : j = k := by omega
        subst hj
        rw [Nat.sub_self, List.range'_zero, List.nil_append] at hpos
        have hb : b = (it :: rest).length := by
          have := congrArg List.length hpos
          simp only [positions] at this
          simpa using this.symm
        subst hb
        rw [reindexFrom_shift (it :: rest) j hpos]
        refine List.map_congr_left ?_
        intro x hx
        have hxpos : x.position ∈ List.range' (j + 1) (it :: rest).length := by
          rw [← hpos]
          exact List.mem_map.mpr ⟨x, hx, rfl⟩
        have := List.mem_range'_1.mp hxpos
        rw [if_neg (by omega)]

lemma reindexWritesFrom_shape :
    ∀ (l : List CItem) (j k b : Nat), j ≤ k →
      positions l = List.range' j (k - j) ++ List.range' (k + 1) b →
      reindexWritesFrom j l =
        (List.drop (k - j) l).map fun it => (it.cid, it.position - 1) := by
  intro l
  induction l with
  | nil => intro j k b _ _; simp [reindexWritesFrom]
  | cons it rest ih =>
      intro j k b hjk hpos
      by_cases hlt : j < k
      · have hsub : k - j = (k - (j + 1)) + 1 := by omega
        rw [hsub, List.range'_succ] at hpos
        simp only [positions, List.map_cons, List.cons_append] at hpos
        have h1 : it.position = j := (List.cons_eq_cons.mp hpos).1
        have h2 : List.map (fun it => it.position) rest =
            List.range' (j + 1) (k - (j + 1)) ++ List.range' (k + 1) b :=
          (List.cons_eq_cons.mp hpos).2
        simp only [reindexWritesFrom]
        rw [if_neg (by omega), ih (j + 1) k b (by omega) (by simpa [positions] using h2),
          hsub, List.drop_succ_cons, List.nil_append]
      · have hj : j = k := by omega
        subst hj
        rw [Nat.sub_self, List.range'_zero, List.nil_append] at hpos
        have hb : b = (it :: rest).length := by
          have := congrArg List.length hpos
          simp only [positions] at this
          simpa using this.symm
        subst hb
        rw [Nat.sub_self, List.drop_zero]
        exact reindexWritesFrom_shift (it :: rest) j hpos

lemma perm_cons_filter_ne :
    ∀ (db : List CItem) (d : CItem), d ∈ db → (cids db).Nodup →
      db.Perm (d :: db.filter fun it => decide (it.cid ≠ d.cid)) := by
  intro db
  induction db with
  | nil => intro d h _; cases h
  | cons a rest ih =>
      intro d hmem hnod
      have hnodr : (cids rest).Nodup := by
        simp only [cids, List.map_cons, List.nodup_cons] at hnod
        exact hnod.2
      have hacid : a.cid ∉ cids rest := by
        simp only [cids, List.map_cons, List.nodup_cons] at hnod
        exact hnod.1
      rcases List.mem_cons.mp hmem with rfl | hd
      · have hfilter : rest.filter (fun it => decide (it.cid ≠ d.cid)) = rest :=
          List.filter_eq_self.mpr fun x hx => by
            simp only [decide_eq_true_eq]
            intro hcon
            exact hacid (hcon ▸ List.mem_map.mpr ⟨x, hx, rfl⟩)
        rw [List.filter_cons, if_neg (by simp), hfilter]
      · have hane : a.cid ≠ d.cid := fun hcon =>
          hacid (hcon ▸ List.mem_map.mpr ⟨d, hd, rfl⟩)
        rw [List.filter_cons, if_pos (by simp [hane])]
        exact ((ih d hd hnodr).cons a).trans
          (List.Perm.swap d a (rest.filter fun it => decide (it.cid ≠ d.cid)))

/-- C2: deleting an id present in a collection whose `n` items hold
positions `0..n-1` removes that item and re-sequences the survivors: up
to storage order, every survivor below the deleted position keeps its
position and every survivor above it moves down by one (so positions
become exactly `0..n-2` in the previous relative order), and position
writes are issued exactly for the survivors above the deleted position
(those whose stored position does not already equal the new index). -/
theorem c2_delete_resequences (db : List CItem) (d : CItem)
    (hmem : d ∈ db)
    (hnodup : (cids db).Nodup)
    (hdense : dense db) :
    (deleteOp db d.cid).Perm
      ((survivors db d.cid).map fun it =>
        if it.position < d.position then it
        else { it with position := it.position - 1 }) ∧
    ((deleteWrites db d.cid).map Prod.fst).Perm
      (((survivors db d.cid).filter fun it =>
          decide (d.position < it.position)).map fun it => it.cid) := by
  have hsome : (findById db d.cid).isSome = true := by
    unfold findById
    exact List.find?_isSome.mpr ⟨d, hmem, by simp⟩
  cases hf : findById db d.cid with
  | none =>
      rw [hf] at hsome
      simp at hsome
  | some f =>
      have hdel : deleteOp db d.cid =
          reindexFrom 0 (sortByPosition (survivors db d.cid)) := by
        unfold deleteOp
        rw [hf]
      have hwrit : deleteWrites db d.cid =
          reindexWritesFrom 0 (sortByPosition (survivors db d.cid)) := by
        unfold deleteWrites
        rw [hf]
      have hpermdb : db.Perm (d :: survivors db d.cid) :=
        perm_cons_filter_ne db d hmem hnodup
      have hmapdb : (positions db).Perm (d.position :: positions (survivors db d.cid)) := by
        have hm := hpermdb.map (fun it => it.position)
        simpa [positions] using hm
      have hk : d.position < db.length := by
        have hmemp : d.position ∈ positions db := List.mem_map.mpr ⟨d, hmem, rfl⟩
        have hmr := (hdense.mem_iff).mp hmemp
        exact List.mem_range.mp hmr
      have e1 : List.range db.length =
          List.range' 0 d.position ++
            List.range' d.position (db.length - d.position) := by
        rw [List.range_eq_range']
        have h2 : db.length - d.position + d.position = db.length := by omega
        calc List.range' 0 db.length
            = List.range' 0 (db.length - d.position + d.position) := by rw [h2]
          _ = List.range' 0 d.position ++
              List.range' (0 + d.position) (db.length - d.position) :=
            (List.range'_append_1 _ _ _).symm
          _ = List.range' 0 d.position ++
              List.range' d.position (db.length - d.position) := by rw [Nat.zero_add]
      have e2 : List.range' d.position (db.length - d.position) =
          d.position :: List.range' (d.position + 1) (db.length - d.position - 1) := by
        have hnk : db.length - d.position = (db.length - d.position - 1) + 1 := by omega
        conv_lhs => rw [hnk]
        rw [List.range'_succ]
      have hrangeperm : (List.range db.length).Perm
          (d.position :: (List.range' 0 d.position ++
            List.range' (d.position + 1) (db.length - d.position - 1))) := by
        rw [e1, e2]
        exact List.perm_middle
      have hsurvpos : (positions (survivors db d.cid)).Perm
          (List.range' 0 d.position ++
            List.range' (d.position + 1) (db.length - d.position - 1)) :=
        List.Perm.cons_inv (hmapdb.symm.trans (hdense.trans hrangeperm))
      have hsp : (sortByPosition (survivors db d.cid)).Perm (survivors db d.cid) :=
        List.perm_insertionSort _ _
      have hsorted_r : List.Sorted (fun a b : CItem => a.position ≤ b.position)
          (sortByPosition (survivors db d.cid)) := List.sorted_insertionSort _ _
      have hsorted_le : List.Sorted (· ≤ ·)
          (positions (sortByPosition (survivors db d.cid))) := by
        unfold positions
        exact List.pairwise_map.mpr hsorted_r
      have hRsorted : List.Sorted (· ≤ ·)
          (List.range' 0 d.position ++
            List.range' (d.position + 1) (db.length - d.position - 1)) := by
        refine List.pairwise_append.mpr ⟨?_, ?_, ?_⟩
        · exact (List.pairwise_lt_range' 0 d.position).imp fun h => Nat.le_of_lt h
        · exact (List.pairwise_lt_range' (d.position + 1) _).imp fun h => Nat.le_of_lt h
        · intro a ha b hb
          have h1 := List.mem_range'_1.mp ha
          have h2 := List.mem_range'_1.mp hb
          omega
      have hspos_perm : (positions (sortByPosition (survivors db d.cid))).Perm
          (List.range' 0 d.position ++
            List.range' (d.position + 1) (db.length - d.position - 1)) := by
        have hm := hsp.map (fun it => it.position)
        exact List.Perm.trans hm hsurvpos
      have heq : positions (sortByPosition (survivors db d.cid)) =
          List.range' 0 d.position ++
            List.range' (d.position + 1) (db.length - d.position - 1) :=
        List.eq_of_perm_of_sorted hspos_perm hsorted_le hRsorted
      have hpos0 : positions (sortByPosition (survivors db d.cid)) =
          List.range' 0 (d.position - 0) ++
            List.range' (d.position + 1) (db.length - d.position - 1) := by
        rw [Nat.sub_zero]
        exact heq
      have hre := reindexFrom_shape (sortByPosition (survivors db d.cid)) 0 d.position
        (db.length - d.position - 1) (Nat.zero_le _) hpos0
      have hwr := reindexWritesFrom_shape (sortByPosition (survivors db d.cid)) 0 d.position
        (db.length - d.position - 1) (Nat.zero_le _) hpos0
      rw [Nat.sub_zero] at hwr
      constructor
      · rw [hdel, hre]
        exact hsp.map _
      · rw [hwrit, hwr]
        have hmm2 : ((List.drop d.position (sortByPosition (survivors db d.cid))).map
              fun it => (it.cid, it.position - 1)).map Prod.fst =
            (List.drop d.position (sortByPosition (survivors db d.cid))).map
              fun it => it.cid := by
          rw [List.map_map]
          rfl
        rw [hmm2]
        have htake : positions (List.take d.position (sortByPosition (survivors db d.cid))) =
            List.range' 0 d.position := by
          rw [positions_take, heq]
          exact List.take_left' (by simp)
        have hdropp : positions (List.drop d.position (sortByPosition (survivors db d.cid))) =
            List.range' (d.position + 1) (db.length - d.position - 1) := by
          rw [positions_drop, heq]
          exact List.drop_left' (by simp)
        have hfilterdrop : (sortByPosition (survivors db d.cid)).filter
              (fun it => decide (d.position < it.position)) =
            List.drop d.position (sortByPosition (survivors db d.cid)) := by
          conv_lhs =>
            rw [← List.take_append_drop d.position (sortByPosition (survivors db d.cid))]
          rw [List.filter_append]
          have hnil : (List.take d.position (sortByPosition (survivors db d.cid))).filter
              (fun it => decide (d.position < it.position)) = [] :=
            List.filter_eq_nil_iff.mpr fun x hx => by
              have hxmem : x.position ∈ List.range' 0 d.position := by
                rw [← htake]
                exact List.mem_map.mpr ⟨x, hx, rfl⟩
              have hb := List.mem_range'_1.mp hxmem
              simp only [decide_eq_true_eq]
              omega
          have hself : (List.drop d.position (sortByPosition (survivors db d.cid))).filter
              (fun it => decide (d.position < it.position)) =
              List.drop d.position (sortByPosition (survivors db d.cid)) :=
            List.filter_eq_self.mpr fun x hx => by
              have hxmem : x.position ∈
                  List.range' (d.position + 1) (db.length - d.position - 1) := by
                rw [← hdropp]
                exact List.mem_map.mpr ⟨x, hx, rfl⟩
              have hb := List.mem_range'_1.mp hxmem
              simp only [decide_eq_true_eq]
              omega
          rw [hnil, hself, List.nil_append]
        rw [← hfilterdrop]
        exact (List.Perm.filter _ hsp).map _

/-- Witness for C2: three items at positions `[0, 1, 2]`; deleting the
middle one. -/
theorem c2_delete_resequences_witness :
    ((⟨2, 1, "b".toList, none, none, none⟩ : CItem) ∈
      ([⟨1, 0, "a".toList, none, none, none⟩, ⟨2, 1, "b".toList, none, none, none⟩,
        ⟨3, 2, "c".toList, none, none, none⟩] : List CItem)) ∧
    (cids [⟨1, 0, "a".toList, none, none, none⟩, ⟨2, 1, "b".toList, none, none, none⟩,
        ⟨3, 2, "c".toList, none, none, none⟩]).Nodup ∧
    dense [⟨1, 0, "a".toList, none, none, none⟩, ⟨2, 1, "b".toList, none, none, none⟩,
        ⟨3, 2, "c".toList, none, none, none⟩] ∧
    ((deleteOp [⟨1, 0, "a".toList, none, none, none⟩, ⟨2, 1, "b".toList, none, none, none⟩,
        ⟨3, 2, "c".toList, none, none, none⟩] 2).Perm
      ((survivors [⟨1, 0, "a".toList, none, none, none⟩,
          ⟨2, 1, "b".toList, none, none, none⟩,
          ⟨3, 2, "c".toList, none, none, none⟩] 2).map fun it =>
        if it.position < 1 then it
        else { it with position := it.position - 1 }) ∧
    ((deleteWrites [⟨1, 0, "a".toList, none, none, none⟩,
        ⟨2, 1, "b".toList, none, none, none⟩,
        ⟨3, 2, "c".toList, none, none, none⟩] 2).map Prod.fst).Perm
      (((survivors [⟨1, 0, "a".toList, none, none, none⟩,
          ⟨2, 1, "b".toList, none, none, none⟩,
          ⟨3, 2, "c".toList, none, none, none⟩] 2).filter fun it =>
          decide (1 < it.position)).map fun it => it.cid)) :=
  ⟨by decide, by decide, by decide,
    c2_delete_resequences
      [⟨1, 0, "a".toList, none, none, none⟩, ⟨2, 1, "b".toList, none, none, none⟩,
       ⟨3, 2, "c".toList, none, none, none⟩]
      ⟨2, 1, "b".toList, none, none, none⟩
      (by decide) (by decide) (by decide)⟩

end BackendPlay
